import Mathlib

/-!
# Grid Selection Engine — formal model

Shallow embedding of the interactive results grid of `src/src/BigQueryTab.tsx`
(the `BqGrid` component and its cell-content classifier), together with
theorems settling the specification claims about it.

Coordinates are modelled with `Int` row/column indices because the source
computes `rows.length - 1` without guarding against empty grids, so a focus
row of `-1` is reachable and must be representable.
-/

namespace BqGrid

/-- A cell coordinate, `{ row, col }` in the source (`CellCoord`). -/
structure CellCoord where
  row : Int
  col : Int
deriving DecidableEq, Repr

/-- The immutable grid a `BqGrid` component displays: ordered column labels
and ordered rows of string cells (`columns`/`rows` props in the source). -/
structure Grid where
  columns : List String
  rows : List (List String)
deriving DecidableEq, Repr

/-- The component-local selection state of `BqGrid`: the `anchor`, `focus`
and `dragging` `useState` hooks (lines 114–116 of the source). -/
structure SelState where
  anchor : Option CellCoord
  focus : Option CellCoord
  dragging : Bool
deriving DecidableEq, Repr

/-- The initial selection state of a freshly mounted `BqGrid`:
`useState(null)`, `useState(null)`, `useState(false)`. -/
def initSelState : SelState := ⟨none, none, false⟩

/-- `coord` is a valid coordinate of grid `g`: row in `[0, rowCount)` and
col in `[0, columnCount)`. -/
def inBounds (g : Grid) (c : CellCoord) : Prop :=
  0 ≤ c.row ∧ c.row < (g.rows.length : Int) ∧ 0 ≤ c.col ∧ c.col < (g.columns.length : Int)

instance (g : Grid) (c : CellCoord) : Decidable (inBounds g c) := by
  unfold inBounds; infer_instance

/-- `handleCellMouseDown` (source lines 131–146), selection part: if the
shift key is held (`extend`) and an anchor exists, only the focus moves to
the pressed cell; otherwise anchor and focus are both set to it. Dragging
starts in either case. -/
def beginSelection (s : SelState) (coord : CellCoord) (extend : Bool) : SelState :=
  if extend ∧ s.anchor.isSome then
    { s with focus := some coord, dragging := true }
  else
    { s with anchor := some coord, focus := some coord, dragging := true }

/-- `handleCellMouseEnter` (source lines 148–153): while dragging, the focus
follows the hovered cell; otherwise nothing happens. -/
def extendSelectionTo (s : SelState) (coord : CellCoord) : SelState :=
  if s.dragging then { s with focus := some coord } else s

/-- The document-level `mouseup` listener (source lines 155–159): it only
sets `dragging` to `false`. -/
def endSelection (s : SelState) : SelState :=
  { s with dragging := false }

/-- `handleHeaderClick` (source lines 223–231): clicking the header of
column `col` sets `anchor = (0, col)` and `focus = (rows.length - 1, col)`,
unconditionally — there is no guard for an empty grid. -/
def selectColumn (g : Grid) (s : SelState) (col : Int) : SelState :=
  { s with anchor := some ⟨0, col⟩, focus := some ⟨(g.rows.length : Int) - 1, col⟩ }

/-- The `mod+a` branch of `handleKeyDown` (source lines 180–186): select the
whole grid, guarded by `rows.length > 0 && columns.length > 0`. -/
def selectAll (g : Grid) (s : SelState) : SelState :=
  if 0 < g.rows.length ∧ 0 < g.columns.length then
    { s with anchor := some ⟨0, 0⟩,
             focus := some ⟨(g.rows.length : Int) - 1, (g.columns.length : Int) - 1⟩ }
  else s

/-- The five navigation keys handled by `handleKeyDown`. -/
inductive Direction where
  | up
  | down
  | left
  | right
  | tab
deriving DecidableEq, Repr

/-- The candidate next row computed by `handleKeyDown` (source lines
188–209): `ArrowDown` is `min (row + 1) (rows.length - 1)`, `ArrowUp` is
`max (row - 1) 0`, other keys leave the row unchanged. -/
def nextRow (g : Grid) (f : CellCoord) : Direction → Int
  | .down => min (f.row + 1) ((g.rows.length : Int) - 1)
  | .up => max (f.row - 1) 0
  | _ => f.row

/-- The candidate next column computed by `handleKeyDown`: `ArrowRight` and
`Tab` are both `min (col + 1) (columns.length - 1)`, `ArrowLeft` is
`max (col - 1) 0`, other keys leave the column unchanged. -/
def nextCol (g : Grid) (f : CellCoord) : Direction → Int
  | .right => min (f.col + 1) ((g.columns.length : Int) - 1)
  | .tab => min (f.col + 1) ((g.columns.length : Int) - 1)
  | .left => max (f.col - 1) 0
  | _ => f.col

/-- The arrow/tab branch of `handleKeyDown` (source lines 187–218): with a
focus set, compute the candidate cell; if it differs from the focus, move
the focus there (also the anchor unless shift extends); otherwise do
nothing. Without a focus, do nothing. -/
def moveCursor (g : Grid) (s : SelState) (d : Direction) (extend : Bool) : SelState :=
  match s.focus with
  | none => s
  | some f =>
    let cand : CellCoord := ⟨nextRow g f d, nextCol g f d⟩
    if cand ≠ f then
      if extend then { s with focus := some cand }
      else { s with anchor := some cand, focus := some cand }
    else s

/-- `inRange` (source lines 119–129): a cell is selected iff anchor and
focus are both set and the cell lies in their inclusive bounding rectangle.
This is the `isSelected` query of the specification. -/
def inRange (s : SelState) (row col : Int) : Bool :=
  match s.anchor, s.focus with
  | some a, some f =>
    decide (min a.row f.row ≤ row) && decide (row ≤ max a.row f.row) &&
      decide (min a.col f.col ≤ col) && decide (col ≤ max a.col f.col)
  | _, _ => false

/-- The row displacement of one navigation step: `down` adds 1, `up`
subtracts 1, horizontal keys leave the row alone. -/
def rowDelta : Direction → Int
  | .down => 1
  | .up => -1
  | _ => 0

/-- The column displacement of one navigation step: `right` and `tab` add
1, `left` subtracts 1, vertical keys leave the column alone. -/
def colDelta : Direction → Int
  | .right => 1
  | .tab => 1
  | .left => -1
  | _ => 0

/-- `x` clamped into the inclusive interval `[lo, hi]`. -/
def clampTo (lo hi x : Int) : Int := max lo (min x hi)

/-- The candidate cell as the specification words it: the focus moved one
step in the given direction and clamped (on both sides) to grid bounds. -/
def specCand (g : Grid) (f : CellCoord) (d : Direction) : CellCoord :=
  ⟨clampTo 0 ((g.rows.length : Int) - 1) (f.row + rowDelta d),
    clampTo 0 ((g.columns.length : Int) - 1) (f.col + colDelta d)⟩

/-- Membership of `c` in the inclusive axis-aligned bounding rectangle of
`a` and `b`, written directly from the specification's definition of the
selected rectangle (`rowMin = min … colMax = max`, inclusive on both
ends). -/
def inRect (a b c : CellCoord) : Prop :=
  min a.row b.row ≤ c.row ∧ c.row ≤ max a.row b.row ∧
    min a.col b.col ≤ c.col ∧ c.col ≤ max a.col b.col

instance (a b c : CellCoord) : Decidable (inRect a b c) := by
  unfold inRect; infer_instance

/-- One input event of the selection engine, as the specification's §4.1
operation set names them. -/
inductive Op where
  | opBegin (c : CellCoord) (extend : Bool)
  | opExtend (c : CellCoord)
  | opEnd
  | opSelCol (col : Int)
  | opMove (d : Direction) (extend : Bool)
  | opSelAll
deriving DecidableEq, Repr

/-- The engine's transition function: dispatch one operation to the
corresponding handler of the source. -/
def applyOp (g : Grid) (s : SelState) : Op → SelState
  | .opBegin c extend => beginSelection s c extend
  | .opExtend c => extendSelectionTo s c
  | .opEnd => endSelection s
  | .opSelCol col => selectColumn g s col
  | .opMove d extend => moveCursor g s d extend
  | .opSelAll => selectAll g s

/-- The caller-side input contract of §4's failure semantics: cell handlers
only fire on rendered cells, so their coordinates are in bounds, and header
clicks only fire on rendered headers, so the column index is in range. -/
def opInputOk (g : Grid) : Op → Prop
  | .opBegin c _ => inBounds g c
  | .opExtend c => inBounds g c
  | .opSelCol col => 0 ≤ col ∧ col < (g.columns.length : Int)
  | _ => True

/-- The selection invariant exactly as the claim states it: whenever a
selection exists (anchor and focus both set), both endpoints are valid
coordinates of the current grid. -/
def selectionWithinBounds (g : Grid) (s : SelState) : Prop :=
  ∀ a f, s.anchor = some a → s.focus = some f → inBounds g a ∧ inBounds g f

/-- A stored optional coordinate is in bounds if present. -/
def coordOk (g : Grid) : Option CellCoord → Prop
  | none => True
  | some c => inBounds g c

/-- The inductive strengthening of the selection invariant: each endpoint
that is set is in bounds (also when only one of the two is set). -/
def endpointsWithinBounds (g : Grid) (s : SelState) : Prop :=
  coordOk g s.anchor ∧ coordOk g s.focus

theorem endpointsWithinBounds.toSelection {g : Grid} {s : SelState}
    (h : endpointsWithinBounds g s) : selectionWithinBounds g s := by
  intro a f ha hf
  obtain ⟨h1, h2⟩ := h
  rw [ha] at h1
  rw [hf] at h2
  exact ⟨h1, h2⟩

instance (g : Grid) (op : Op) : Decidable (opInputOk g op) := by
  cases op <;> (unfold opInputOk; infer_instance)

/-- The input contract amended for `selectColumn`: clicking a header of an
empty grid breaks the bounds invariant, so preservation additionally needs
at least one row there. -/
def opInputOkAmended (g : Grid) : Op → Prop
  | .opSelCol col => 0 ≤ col ∧ col < (g.columns.length : Int) ∧ 1 ≤ g.rows.length
  | op => opInputOk g op

instance (g : Grid) (op : Op) : Decidable (opInputOkAmended g op) := by
  cases op <;> (unfold opInputOkAmended; infer_instance)

/-- `rows[r]?.[c] ?? ''` (source line 174): the cell at a possibly
out-of-range position, the empty string when the row or the cell does not
exist (also for negative indices, where the JS lookup yields `undefined`). -/
def cellAt (rows : List (List String)) (r c : Int) : String :=
  if 0 ≤ r ∧ 0 ≤ c then
    (((rows.get? r.toNat).bind fun row => row.get? c.toNat).getD "")
  else ""

/-- The `lines`/`cells` arrays the copy branch of `handleKeyDown` builds
(source lines 166–177): one entry per row from `rowMin` to `rowMax`, each a
list of the cells from `colMin` to `colMax`. -/
def copyLines (rows : List (List String)) (a f : CellCoord) : List (List String) :=
  let r0 := min a.row f.row
  let r1 := max a.row f.row
  let c0 := min a.col f.col
  let c1 := max a.col f.col
  (List.range ((r1 - r0).toNat + 1)).map fun (i : Nat) =>
    (List.range ((c1 - c0).toNat + 1)).map fun (j : Nat) =>
      cellAt rows (r0 + (i : Int)) (c0 + (j : Int))

/-- `copySelectionAsText` (the `mod+c` branch of `handleKeyDown`, source
lines 164–179): with anchor and focus set, the rectangle serialized as
tab-joined cells, newline-joined rows; without a selection the branch does
not run. -/
def copySelectionAsText (g : Grid) (s : SelState) : Option String :=
  match s.anchor, s.focus with
  | some a, some f =>
    some (String.intercalate "\n" ((copyLines g.rows a f).map (String.intercalate "\t")))
  | _, _ => none

/-- JavaScript's whitespace class `\s` (the complement of the `\S` used by
the source's URL regexes): tab, LF, VT, FF, CR, space, NBSP, Ogham space,
the U+2000–U+200A range, LS, PS, NNBSP, MMSP, ideographic space and BOM. -/
def isJsSpace (c : Char) : Bool :=
  c.toNat == 9 || c.toNat == 10 || c.toNat == 11 || c.toNat == 12 || c.toNat == 13 ||
    c.toNat == 32 || c.toNat == 160 || c.toNat == 5760 ||
    (decide (8192 ≤ c.toNat) && decide (c.toNat ≤ 8202)) ||
    c.toNat == 8232 || c.toNat == 8233 || c.toNat == 8239 || c.toNat == 8287 ||
    c.toNat == 12288 || c.toNat == 65279

/-- ASCII lowercasing on code points, the canonicalisation JavaScript's `i`
flag performs for the ASCII literals of the source's regexes (a non-ASCII
character never matches an ASCII pattern character under `/i`). -/
def lowerNat (n : Nat) : Nat := if 65 ≤ n ∧ n ≤ 90 then n + 32 else n

/-- The lowercased code points of a character list. -/
def lowers (cs : List Char) : List Nat := cs.map fun c => lowerNat c.toNat

/-- Case-insensitively strip a literal pattern (given as lowercased code
points) from the front of the input, returning the remainder. -/
def stripPrefixCI : List Nat → List Char → Option (List Char)
  | [], cs => some cs
  | _ :: _, [] => none
  | p :: ps, c :: cs => if lowerNat c.toNat = p then stripPrefixCI ps cs else none

/-- The code points of the literal `https://`. -/
def httpsPat : List Nat := "https://".data.map Char.toNat

/-- The code points of the literal `http://`. -/
def httpPat : List Nat := "http://".data.map Char.toNat

/-- The `^https?:\/\/` part shared by both regexes (source lines 76–77): the
remainder of the input after its scheme, or `none` when no scheme matches.
Trying `https://` first and `http://` second decides the same language as
the regex's optional `s?`. -/
def schemeRest (cs : List Char) : Option (List Char) :=
  match stripPrefixCI httpsPat cs with
  | some rest => some rest
  | none => stripPrefixCI httpPat cs

/-- The alternatives of `(png|jpe?g|gif|webp|svg|bmp|ico|tiff?)` expanded. -/
def imageExts : List String :=
  ["png", "jpg", "jpeg", "gif", "webp", "svg", "bmp", "ico", "tiff", "tif"]

/-- Does the input end in `.` followed by a recognized image extension
(case-insensitively), with at least one character before the dot? -/
def endsWithImageExt (cs : List Char) : Bool :=
  imageExts.any fun e =>
    decide (e.data.length + 1 < cs.length) &&
      (lowers (cs.drop (cs.length - (e.data.length + 1))) == 46 :: e.data.map Char.toNat)

/-- `IMAGE_URL_RE.test` (source line 76),
`/^https?:\/\/\S+\.(png|jpe?g|gif|webp|svg|bmp|ico|tiff?)(\?\S*)?$/i`: after
the scheme, a whitespace-free remainder that either ends in `.`+extension,
or has some `?` whose preceding part ends in `.`+extension (the regex's
greedy-with-backtracking match is equivalent to this split search). -/
def imageTest (s : String) : Bool :=
  match schemeRest s.data with
  | some rest =>
    rest.all (fun c => !isJsSpace c) &&
      (endsWithImageExt rest ||
        (List.range rest.length).any fun i =>
          rest.getD i ' ' == '?' && endsWithImageExt (rest.take i))
  | none => false

/-- `URL_RE.test` (source line 77), `/^https?:\/\/\S+$/i`: after the
scheme, a nonempty whitespace-free remainder. -/
def urlTest (s : String) : Bool :=
  match schemeRest s.data with
  | some rest => !rest.isEmpty && rest.all (fun c => !isJsSpace c)
  | none => false

/-- How `renderCellContent` presents a cell value. -/
inductive CellClass where
  | image
  | link
  | plain
deriving DecidableEq, Repr

/-- The classification performed by `renderCellContent` (source lines
81–111): a falsy (empty) value is rendered verbatim, then the image regex
is tried, then the URL regex, and anything else is rendered verbatim. The
function reads nothing but the string, so it is pure and
position-independent. -/
def classifyCell (value : String) : CellClass :=
  if value = "" then .plain
  else if imageTest value then .image
  else if urlTest value then .link
  else .plain

/-- The image test as the specification words it (`a value matching an
http(s) URL whose path ends in a recognized image extension, optionally
followed by a query string`): the part before the query — before the first
`?` — must end in `.`+extension. Stated from the spec's words to compare
against `imageTest`, the source's actual predicate. -/
def specImageTest (s : String) : Bool :=
  match schemeRest s.data with
  | some rest =>
    !rest.isEmpty && rest.all (fun c => !isJsSpace c) &&
      endsWithImageExt (rest.takeWhile fun c => c != '?')
  | none => false

/-- The classifier as the specification describes it, differing from
`classifyCell` only in the image predicate. -/
def specClassify (value : String) : CellClass :=
  if value = "" then .plain
  else if specImageTest value then .image
  else if urlTest value then .link
  else .plain

/-- A character list lowercasing to one of the two scheme literals. -/
def SchemePat (pre : List Char) : Prop := lowers pre = httpPat ∨ lowers pre = httpsPat

/-- No character of the list is JavaScript whitespace. -/
def NonSpace (cs : List Char) : Prop := ∀ c ∈ cs, isJsSpace c = false

/-- The declarative shape of a generic http(s) URL as the regex accepts it:
a scheme and a nonempty whitespace-free remainder. -/
def UrlShape (s : String) : Prop :=
  ∃ pre rest, s.data = pre ++ rest ∧ SchemePat pre ∧ rest ≠ [] ∧ NonSpace rest

/-- The declarative shape of the values the source's image regex accepts: a
scheme, a nonempty whitespace-free body, a dot, a recognized extension
(case-insensitively), and an optional query suffix `?`+whitespace-free
text. The extension sits before the query suffix or the end of the string —
not necessarily at the end of the URL's path. -/
def ImageShape (s : String) : Prop :=
  ∃ pre body ext q, s.data = pre ++ (body ++ '.' :: (ext ++ q)) ∧ SchemePat pre ∧
    body ≠ [] ∧ NonSpace body ∧
    (∃ e ∈ imageExts, lowers ext = e.data.map Char.toNat) ∧
    (q = [] ∨ ∃ t, q = '?' :: t ∧ NonSpace t)

theorem lowers_append (a b : List Char) : lowers (a ++ b) = lowers a ++ lowers b :=
  List.map_append _ a b

theorem stripPrefixCI_eq_some (p : List Nat) (cs r : List Char) :
    stripPrefixCI p cs = some r ↔ ∃ pre, cs = pre ++ r ∧ lowers pre = p := by
  induction p generalizing cs with
  | nil =>
    simp only [stripPrefixCI, Option.some.injEq]
    constructor
    · intro h
      exact ⟨[], h, rfl⟩
    · rintro ⟨pre, hcs, hpre⟩
      cases pre with
      | nil => rw [hcs]; rfl
      | cons x xs => simp [lowers] at hpre
  | cons p ps ih =>
    cases cs with
    | nil =>
      simp only [stripPrefixCI]
      constructor
      · intro h
        cases h
      · rintro ⟨pre, hcs, hpre⟩
        cases pre with
        | nil => simp [lowers] at hpre
        | cons x xs => cases hcs
    | cons c cs' =>
      simp only [stripPrefixCI]
      by_cases h : lowerNat c.toNat = p
      · rw [if_pos h, ih]
        constructor
        · rintro ⟨pre', hcs', hpre'⟩
          refine ⟨c :: pre', ?_, ?_⟩
          · rw [List.cons_append, hcs']
          · simp only [lowers, List.map_cons] at hpre' ⊢
            rw [h, hpre']
        · rintro ⟨pre, hcs, hpre⟩
          cases pre with
          | nil => simp [lowers] at hpre
          | cons x pre' =>
            injection hcs with hc hcs'
            simp only [lowers, List.map_cons] at hpre
            injection hpre with hp hps
            exact ⟨pre', hcs', hps⟩
      · rw [if_neg h]
        constructor
        · intro hx
          cases hx
        · rintro ⟨pre, hcs, hpre⟩
          cases pre with
          | nil => simp [lowers] at hpre
          | cons x pre' =>
            injection hcs with hc _
            simp only [lowers, List.map_cons] at hpre
            injection hpre with hp _
            rw [← hc] at hp
            exact absurd hp h

theorem schemeRest_eq_some (cs r : List Char) :
    schemeRest cs = some r ↔ ∃ pre, cs = pre ++ r ∧ SchemePat pre := by
  unfold schemeRest
  constructor
  · intro h
    cases hs : stripPrefixCI httpsPat cs with
    | some r' =>
      rw [hs] at h
      injection h with h
      obtain ⟨pre, h1, h2⟩ := (stripPrefixCI_eq_some _ _ _).mp hs
      rw [h] at h1
      exact ⟨pre, h1, Or.inr h2⟩
    | none =>
      rw [hs] at h
      obtain ⟨pre, h1, h2⟩ := (stripPrefixCI_eq_some _ _ _).mp h
      exact ⟨pre, h1, Or.inl h2⟩
  · rintro ⟨pre, hcs, hp | hp⟩
    · have hnone : stripPrefixCI httpsPat cs = none := by
        cases hx : stripPrefixCI httpsPat cs with
        | none => rfl
        | some r' =>
          exfalso
          obtain ⟨pre', h1', h2'⟩ := (stripPrefixCI_eq_some _ _ _).mp hx
          have heq : httpPat ++ lowers r = httpsPat ++ lowers r' := by
            rw [← hp, ← h2', ← lowers_append, ← lowers_append, ← hcs, ← h1']
          have e4 : (httpPat ++ lowers r)[4]? = (httpsPat ++ lowers r')[4]? := by
            rw [heq]
          rw [List.getElem?_append_left (by decide),
            List.getElem?_append_left (by decide)] at e4
          exact absurd e4 (by decide)
      rw [hnone]
      exact (stripPrefixCI_eq_some _ _ _).mpr ⟨pre, hcs, hp⟩
    · have hsome : stripPrefixCI httpsPat cs = some r :=
        (stripPrefixCI_eq_some _ _ _).mpr ⟨pre, hcs, hp⟩
      rw [hsome]

theorem eq_dot_of_lowerNat {c : Char} (h : lowerNat c.toNat = 46) : c = '.' := by
  have h46 : c.toNat = 46 := by
    unfold lowerNat at h
    split at h <;> omega
  have hc := Char.ofNat_toNat c
  rw [h46] at hc
  rw [← hc]

theorem isJsSpace_eq_false_of_code {c : Char} {k : Nat} (hk : lowerNat c.toNat = k)
    (h1 : 46 ≤ k) (h2 : k ≤ 122) : isJsSpace c = false := by
  have hc : (65 ≤ c.toNat ∧ c.toNat ≤ 90) ∨ (46 ≤ c.toNat ∧ c.toNat ≤ 122) := by
    unfold lowerNat at hk
    split at hk
    · left
      assumption
    · right
      omega
  unfold isJsSpace
  rcases hc with ⟨ha, hb⟩ | ⟨ha, hb⟩ <;>
    simp only [Bool.or_eq_false_iff, Bool.and_eq_false_iff, beq_eq_false_iff_ne, ne_eq,
      decide_eq_false_iff_not, not_le] <;>
    omega

theorem imageExts_codes : ∀ e ∈ imageExts, ∀ ch ∈ e.data, 97 ≤ ch.toNat ∧ ch.toNat ≤ 122 := by
  decide

theorem endsWithImageExt_iff (cs : List Char) :
    endsWithImageExt cs = true ↔
      ∃ B ext, cs = B ++ '.' :: ext ∧ B ≠ [] ∧
        ∃ e ∈ imageExts, lowers ext = e.data.map Char.toNat := by
  unfold endsWithImageExt
  rw [List.any_eq_true]
  constructor
  · rintro ⟨e, he, hcond⟩
    rw [Bool.and_eq_true, decide_eq_true_eq, beq_iff_eq] at hcond
    obtain ⟨hlen, hdrop⟩ := hcond
    cases hd : cs.drop (cs.length - (e.data.length + 1)) with
    | nil =>
      rw [hd] at hdrop
      simp [lowers] at hdrop
    | cons c ext =>
      rw [hd] at hdrop
      simp only [lowers, List.map_cons] at hdrop
      injection hdrop with h1 h2
      have hcdot : c = '.' := eq_dot_of_lowerNat h1
      refine ⟨cs.take (cs.length - (e.data.length + 1)), ext, ?_, ?_, e, he, h2⟩
      · rw [← hcdot, ← hd]
        exact (List.take_append_drop _ cs).symm
      · apply List.ne_nil_of_length_pos
        rw [List.length_take]
        omega
  · rintro ⟨B, ext, hcs, hB, e, he, hext⟩
    refine ⟨e, he, ?_⟩
    have hBlen : 0 < B.length := List.length_pos.mpr hB
    have hextlen : ext.length = e.data.length := by
      have := congrArg List.length hext
      simpa [lowers] using this
    have hcslen : cs.length = B.length + (ext.length + 1) := by
      rw [hcs]
      simp only [List.length_append, List.length_cons]
    rw [Bool.and_eq_true, decide_eq_true_eq, beq_iff_eq]
    refine ⟨by omega, ?_⟩
    have hdropk : cs.drop (cs.length - (e.data.length + 1)) = '.' :: ext := by
      have hk : cs.length - (e.data.length + 1) = B.length := by omega
      rw [hk, hcs, List.drop_left]
    rw [hdropk]
    simp only [lowers, List.map_cons]
    simp only [lowers] at hext
    exact congrArg₂ List.cons (by decide) hext

theorem imageTest_none (s : String) (hs : schemeRest s.data = none) : imageTest s = false := by
  unfold imageTest
  rw [hs]

theorem imageTest_eq (s : String) (rest : List Char) (hs : schemeRest s.data = some rest) :
    imageTest s = (rest.all (fun c => !isJsSpace c) &&
      (endsWithImageExt rest ||
        (List.range rest.length).any fun i =>
          rest.getD i ' ' == '?' && endsWithImageExt (rest.take i))) := by
  unfold imageTest
  rw [hs]

theorem urlTest_none (s : String) (hs : schemeRest s.data = none) : urlTest s = false := by
  unfold urlTest
  rw [hs]

theorem urlTest_eq (s : String) (rest : List Char) (hs : schemeRest s.data = some rest) :
    urlTest s = (!rest.isEmpty && rest.all (fun c => !isJsSpace c)) := by
  unfold urlTest
  rw [hs]

theorem urlTest_iff (s : String) : urlTest s = true ↔ UrlShape s := by
  cases hs : schemeRest s.data with
  | none =>
    rw [urlTest_none s hs]
    simp only [Bool.false_eq_true, false_iff]
    rintro ⟨pre, rest, hdec, hpre, _, _⟩
    have h2 := (schemeRest_eq_some s.data rest).mpr ⟨pre, hdec, hpre⟩
    rw [hs] at h2
    cases h2
  | some rest =>
    rw [urlTest_eq s rest hs, Bool.and_eq_true]
    constructor
    · rintro ⟨h1, h2⟩
      obtain ⟨pre, hdec, hpre⟩ := (schemeRest_eq_some s.data rest).mp hs
      refine ⟨pre, rest, hdec, hpre, ?_, ?_⟩
      · intro hnil
        rw [hnil] at h1
        cases h1
      · intro c hc
        simpa using (List.all_eq_true.mp h2) c hc
    · rintro ⟨pre, rest', hdec, hpre, hne, hns⟩
      have hsome := (schemeRest_eq_some s.data rest').mpr ⟨pre, hdec, hpre⟩
      rw [hs] at hsome
      injection hsome with hr
      subst hr
      constructor
      · simp [List.isEmpty_iff, hne]
      · rw [List.all_eq_true]
        intro c hc
        simpa using hns c hc

theorem imageTest_iff (s : String) : imageTest s = true ↔ ImageShape s := by
  cases hs : schemeRest s.data with
  | none =>
    rw [imageTest_none s hs]
    simp only [Bool.false_eq_true, false_iff]
    rintro ⟨pre, body, ext, q, hdec, hpre, _, _, _, _⟩
    have h2 := (schemeRest_eq_some s.data (body ++ '.' :: (ext ++ q))).mpr ⟨pre, hdec, hpre⟩
    rw [hs] at h2
    cases h2
  | some rest =>
    rw [imageTest_eq s rest hs, Bool.and_eq_true, Bool.or_eq_true]
    constructor
    · rintro ⟨hall, hor⟩
      obtain ⟨pre, hdec, hpre⟩ := (schemeRest_eq_some s.data rest).mp hs
      have hns : ∀ c ∈ rest, isJsSpace c = false := by
        intro c hc
        simpa using (List.all_eq_true.mp hall) c hc
      rcases hor with hend | hsplit
      · obtain ⟨B, ext, hrest, hB, e, he, hext⟩ := (endsWithImageExt_iff rest).mp hend
        refine ⟨pre, B, ext, [], ?_, hpre, hB, ?_, ⟨e, he, hext⟩, Or.inl rfl⟩
        · rw [hdec, hrest]
          simp
        · intro c hc
          exact hns c (by rw [hrest]; exact List.mem_append_left _ hc)
      · rw [List.any_eq_true] at hsplit
        obtain ⟨i, hi, hcond⟩ := hsplit
        rw [List.mem_range] at hi
        rw [Bool.and_eq_true, beq_iff_eq] at hcond
        obtain ⟨hqmark, hend⟩ := hcond
        obtain ⟨B, ext, htake, hB, e, he, hext⟩ := (endsWithImageExt_iff _).mp hend
        have hresteq : rest = rest.take i ++ '?' :: rest.drop (i + 1) := by
          have h2 : rest.drop i = rest.get ⟨i, hi⟩ :: rest.drop (i + 1) :=
            List.drop_eq_getElem_cons hi
          have h3 : rest.get ⟨i, hi⟩ = '?' := by
            have h4 := hqmark
            rwa [List.getD_eq_getElem?_getD, List.getElem?_eq_getElem hi,
              Option.getD_some] at h4
          conv_lhs => rw [← List.take_append_drop i rest]
          rw [h2, h3]
        have hdec2 : s.data = pre ++ (B ++ '.' :: (ext ++ '?' :: rest.drop (i + 1))) := by
          rw [hdec]
          conv_lhs => rw [hresteq, htake]
          simp
        have hBns : NonSpace B := by
          intro c hc
          apply hns
          rw [hresteq, htake]
          exact List.mem_append_left _ (List.mem_append_left _ hc)
        have htns : NonSpace (rest.drop (i + 1)) := by
          intro c hc
          apply hns
          rw [hresteq]
          exact List.mem_append_right _ (List.mem_cons_of_mem _ hc)
        exact ⟨pre, B, ext, '?' :: rest.drop (i + 1), hdec2, hpre, hB, hBns,
          ⟨e, he, hext⟩, Or.inr ⟨rest.drop (i + 1), rfl, htns⟩⟩
    · rintro ⟨pre, body, ext, q, hdec, hpre, hbne, hbns, ⟨e, he, hext⟩, hq⟩
      have hsome := (schemeRest_eq_some s.data (body ++ '.' :: (ext ++ q))).mpr
        ⟨pre, hdec, hpre⟩
      rw [hs] at hsome
      injection hsome with hr
      subst hr
      constructor
      · rw [List.all_eq_true]
        intro c hc
        simp only [Bool.not_eq_true']
        rcases List.mem_append.mp hc with hcb | hcd
        · exact hbns c hcb
        · rcases List.mem_cons.mp hcd with rfl | hcd2
          · decide
          · rcases List.mem_append.mp hcd2 with hce | hcq
            · have hm : lowerNat c.toNat ∈ lowers ext :=
                List.mem_map_of_mem _ hce
              rw [hext] at hm
              obtain ⟨ch, hch, hcheq⟩ := List.mem_map.mp hm
              have hb := imageExts_codes e he ch hch
              exact isJsSpace_eq_false_of_code hcheq.symm (by omega) (by omega)
            · rcases hq with rfl | ⟨t, rfl, hts⟩
              · cases hcq
              · rcases List.mem_cons.mp hcq with rfl | hct
                · decide
                · exact hts c hct
      · rcases hq with rfl | ⟨t, rfl, hts⟩
        · left
          exact (endsWithImageExt_iff _).mpr ⟨body, ext, by simp, hbne, e, he, hext⟩
        · right
          rw [List.any_eq_true]
          have hrest2 : body ++ '.' :: (ext ++ '?' :: t) =
              (body ++ '.' :: ext) ++ '?' :: t := by
            simp
          refine ⟨(body ++ '.' :: ext).length, ?_, ?_⟩
          · rw [List.mem_range, hrest2, List.length_append]
            simp
          · rw [Bool.and_eq_true, beq_iff_eq]
            constructor
            · rw [hrest2, List.getD_eq_getElem?_getD,
                List.getElem?_append_right (Nat.le_refl _)]
              simp
            · rw [hrest2, List.take_left]
              exact (endsWithImageExt_iff _).mpr ⟨body, ext, rfl, hbne, e, he, hext⟩

theorem SchemePat_ne_nil {pre : List Char} (h : SchemePat pre) : pre ≠ [] := by
  rintro rfl
  rcases h with h | h <;> exact absurd h (by decide)

theorem UrlShape_ne_empty {s : String} (h : UrlShape s) : s ≠ "" := by
  obtain ⟨pre, rest, hdec, hpre, _, _⟩ := h
  intro hs
  rw [hs] at hdec
  have hlen := congrArg List.length hdec
  simp [List.length_append] at hlen
  exact SchemePat_ne_nil hpre (List.length_eq_zero.mp (by omega))

theorem ImageShape_ne_empty {s : String} (h : ImageShape s) : s ≠ "" := by
  obtain ⟨pre, body, ext, q, hdec, hpre, _, _, _, _⟩ := h
  intro hs
  rw [hs] at hdec
  have hlen := congrArg List.length hdec
  simp [List.length_append] at hlen
  omega

/-- A mounted `BqGrid` component: the grid it was handed and its
component-local selection state. -/
structure GridView where
  grid : Grid
  sel : SelState
deriving DecidableEq, Repr

/-- One render of the results surface at the fixed tree position of
`<BqGrid>` (source lines 952–977), modelling React's keyless
reconciliation: no grid prop unmounts the component (its state is lost); a
grid prop over a mounted component keeps the component and its selection
state, updating the props; a grid prop with nothing mounted mounts a fresh
component whose `useState` hooks start at `initSelState`. -/
def renderGrid (view : Option GridView) (prop : Option Grid) : Option GridView :=
  match prop with
  | none => none
  | some g =>
    match view with
    | some v => some { v with grid := g }
    | none => some { grid := g, sel := initSelState }

/-- Loading a new grid as the source does it: `handleRunQuery` (lines
398–410) first renders with `result: undefined` (line 400) and only then,
when the response arrives, with the new grid; `handlePreviewTable` (lines
375–387) likewise renders with `setPreview(null)` before `setPreview`
of the fresh data. -/
def loadNewGrid (view : Option GridView) (g : Grid) : Option GridView :=
  renderGrid (renderGrid view none) (some g)

theorem nextCand_inBounds (g : Grid) (f : CellCoord) (d : Direction)
    (hf : inBounds g f) : inBounds g ⟨nextRow g f d, nextCol g f d⟩ := by
  obtain ⟨h1, h2, h3, h4⟩ := hf
  cases d <;> simp only [nextRow, nextCol, inBounds] <;> omega

theorem nextCand_eq_specCand (g : Grid) (f : CellCoord) (d : Direction)
    (hf : inBounds g f) : (⟨nextRow g f d, nextCol g f d⟩ : CellCoord) = specCand g f d := by
  obtain ⟨h1, h2, h3, h4⟩ := hf
  cases d <;> simp only [nextRow, nextCol, specCand, rowDelta, colDelta, clampTo,
    CellCoord.mk.injEq] <;> omega

end BqGrid

section Claims

open BqGrid

/-- **C1.** For coordinates `a`, `b` in grid bounds and any starting
selection state, `beginSelection(a, false)` followed by
`extendSelectionTo(b)` selects exactly the inclusive bounding rectangle of
`a` and `b`: `isSelected(c)` (the source's `inRange`) holds iff `c` lies in
that rectangle, for every coordinate `c`. -/
theorem c1_drag_selects_bounding_rectangle (g : Grid) (s : SelState) (a b c : CellCoord)
    (ha : inBounds g a) (hb : inBounds g b) :
    inRange (extendSelectionTo (beginSelection s a false) b) c.row c.col = true ↔
      inRect a b c := by
  have hdrag : (beginSelection s a false).dragging = true := by
    unfold beginSelection
    split <;> rfl
  have hanchor : (beginSelection s a false).anchor = some a := by
    unfold beginSelection
    split
    · rename_i h
      exact absurd h.1 (by simp)
    · rfl
  unfold extendSelectionTo
  rw [hdrag]
  simp only [if_pos rfl]
  unfold inRange inRect
  rw [hanchor]
  simp [and_assoc]

/-- Closed witness for C1 at a concrete grid, state and coordinates. -/
theorem c1_drag_selects_bounding_rectangle_witness :
    inRange (extendSelectionTo (beginSelection initSelState ⟨0, 1⟩ false) ⟨1, 0⟩) 1 1 = true ↔
      inRect ⟨0, 1⟩ ⟨1, 0⟩ ⟨1, 1⟩ :=
  c1_drag_selects_bounding_rectangle ⟨["a", "b"], [["x", "y"], ["u", "v"]]⟩ initSelState
    ⟨0, 1⟩ ⟨1, 0⟩ ⟨1, 1⟩ (by decide) (by decide)

/-- **C2, counterexample.** The claim's invariant is not preserved by
`selectColumn` on a grid with one column and zero rows: from the empty
selection (which satisfies the invariant), clicking the header of column 0
sets `anchor = (0, 0)` and `focus = (-1, 0)`, and a grid with no rows has
no valid coordinates at all. -/
theorem c2_counterexample :
    selectionWithinBounds ⟨["a"], []⟩ initSelState ∧
      opInputOk ⟨["a"], []⟩ (Op.opSelCol 0) ∧
      ¬ selectionWithinBounds ⟨["a"], []⟩
        (applyOp ⟨["a"], []⟩ initSelState (Op.opSelCol 0)) := by
  refine ⟨fun a f ha _ => Option.noConfusion ha, by decide, fun h => ?_⟩
  exact absurd (h ⟨0, 0⟩ ⟨-1, 0⟩ (by decide) (by decide)).2.1 (by decide)

/-- **C2, amended.** The invariant strengthened to each stored endpoint
(anchor or focus, also when only one is set) being in bounds — which
implies the claim's form — is preserved by every operation given in-bounds
input, where `selectColumn` additionally requires the grid to have at least
one row. -/
theorem c2_amended_invariant_preserved (g : Grid) (s : SelState) (op : Op)
    (hs : endpointsWithinBounds g s) (hin : opInputOkAmended g op) :
    endpointsWithinBounds g (applyOp g s op) ∧
      selectionWithinBounds g (applyOp g s op) := by
  have key : endpointsWithinBounds g (applyOp g s op) := by
    cases op with
    | opBegin c extend =>
      simp only [applyOp, beginSelection]
      split
      · exact ⟨hs.1, hin⟩
      · exact ⟨hin, hin⟩
    | opExtend c =>
      simp only [applyOp, extendSelectionTo]
      split
      · exact ⟨hs.1, hin⟩
      · exact hs
    | opEnd => exact hs
    | opSelCol col =>
      obtain ⟨h1, h2, h3⟩ := hin
      simp only [applyOp, selectColumn, endpointsWithinBounds, coordOk, inBounds]
      exact ⟨⟨by omega, by omega, h1, h2⟩, ⟨by omega, by omega, h1, h2⟩⟩
    | opMove d extend =>
      simp only [applyOp, moveCursor]
      cases hf : s.focus with
      | none => exact hs
      | some f =>
        have hfb : inBounds g f := by
          have := hs.2
          rw [hf] at this
          exact this
        simp only
        split
        · split
          · exact ⟨hs.1, nextCand_inBounds g f d hfb⟩
          · exact ⟨nextCand_inBounds g f d hfb, nextCand_inBounds g f d hfb⟩
        · exact hs
    | opSelAll =>
      simp only [applyOp, selectAll]
      split
      · rename_i h
        obtain ⟨h1, h2⟩ := h
        simp only [endpointsWithinBounds, coordOk, inBounds]
        exact ⟨⟨by omega, by omega, by omega, by omega⟩, ⟨by omega, by omega, by omega, by omega⟩⟩
      · exact hs
  exact ⟨key, key.toSelection⟩

/-- Closed witness for C2 (amended) at a concrete grid, state and
operation. -/
theorem c2_amended_invariant_preserved_witness :
    endpointsWithinBounds ⟨["a"], [["x"]]⟩
        (applyOp ⟨["a"], [["x"]]⟩ initSelState (Op.opSelCol 0)) ∧
      selectionWithinBounds ⟨["a"], [["x"]]⟩
        (applyOp ⟨["a"], [["x"]]⟩ initSelState (Op.opSelCol 0)) :=
  c2_amended_invariant_preserved ⟨["a"], [["x"]]⟩ initSelState (Op.opSelCol 0)
    ⟨trivial, trivial⟩ (by decide)

/-- **C3, counterexample.** `selectColumn(0)` on a grid with one column and
zero rows is not a no-op: it changes the state, setting
`focus = (-1, 0)` (the source computes `rows.length - 1` with no zero-row
guard). -/
theorem c3_counterexample :
    selectColumn ⟨["a"], []⟩ initSelState 0 ≠ initSelState ∧
      (selectColumn ⟨["a"], []⟩ initSelState 0).focus = some ⟨-1, 0⟩ := by
  constructor
  · decide
  · decide

/-- **C3, amended.** `selectColumn(colIndex)` unconditionally sets
`anchor = (0, colIndex)` and `focus = (rowCount - 1, colIndex)` and leaves
`dragging` unchanged; on a grid with at least one row this selects the
entire column, and on a zero-row grid it is not a no-op — the focus row
becomes `-1`. -/
theorem c3_selectColumn_unconditional (g : Grid) (s : SelState) (col : Int) :
    (selectColumn g s col).anchor = some ⟨0, col⟩ ∧
      (selectColumn g s col).focus = some ⟨(g.rows.length : Int) - 1, col⟩ ∧
      (selectColumn g s col).dragging = s.dragging :=
  ⟨rfl, rfl, rfl⟩

/-- **C5.** `moveCursor(direction, extend)` is a no-op with no focus set;
with an in-bounds focus, the candidate the source computes equals the
focus moved one step in the direction and clamped to grid bounds (`tab`
stepping right with no wraparound); when the candidate equals the focus the
operation is a no-op, and otherwise the focus moves to the candidate, the
anchor staying put when `extend` holds and collapsing to the candidate when
it does not, `dragging` untouched. -/
theorem c5_moveCursor_spec (g : Grid) (s : SelState) (d : Direction) (ext : Bool) :
    (s.focus = none → moveCursor g s d ext = s) ∧
    ∀ f, s.focus = some f → inBounds g f →
      (⟨nextRow g f d, nextCol g f d⟩ : CellCoord) = specCand g f d ∧
      (specCand g f d = f → moveCursor g s d ext = s) ∧
      (specCand g f d ≠ f →
        (moveCursor g s d ext).focus = some (specCand g f d) ∧
        (moveCursor g s d ext).anchor = (if ext then s.anchor else some (specCand g f d)) ∧
        (moveCursor g s d ext).dragging = s.dragging) := by
  constructor
  · intro hf
    simp only [moveCursor, hf]
  · intro f hf hfb
    have hcand := nextCand_eq_specCand g f d hfb
    refine ⟨hcand, ?_, ?_⟩
    · intro heq
      simp only [moveCursor, hf, hcand, heq]
      simp
    · intro hne
      simp only [moveCursor, hf, hcand]
      rw [if_pos hne]
      cases ext with
      | true => exact ⟨rfl, rfl, rfl⟩
      | false => exact ⟨rfl, rfl, rfl⟩

/-- **C9.** `endSelection()` only clears `dragging`; anchor and focus are
untouched, from every selection state — in particular calling it with no
prior `beginSelection` leaves the (empty) selection empty. -/
theorem c9_endSelection_only_clears_dragging (s : SelState) :
    (endSelection s).anchor = s.anchor ∧ (endSelection s).focus = s.focus ∧
      (endSelection s).dragging = false :=
  ⟨rfl, rfl, rfl⟩

/-- **C4.** Loading a new grid while a selection exists resets all
selection state: the load sequence renders once with no grid (unmounting
the old component and its anchor/focus/dragging state) and then with the
new grid, mounting a fresh component with the initial selection state — so
afterwards `isSelected` is false at every coordinate. -/
theorem c4_grid_swap_resets_selection (view : Option GridView) (g : Grid) :
    loadNewGrid view g = some { grid := g, sel := initSelState } ∧
    ∀ v, loadNewGrid view g = some v → ∀ row col, inRange v.sel row col = false := by
  constructor
  · rfl
  · intro v hv row col
    have : v = { grid := g, sel := initSelState } := by
      cases hv
      rfl
    rw [this]
    rfl

/-- **C6.** On the grid `[["a","b","c"],["1","2","3"],["x","y","z"]]` with
a selection spanning rows 1–2 and columns 0–1, the copied text is exactly
`"1\t2\nx\ty"`. -/
theorem c6_copy_example :
    copySelectionAsText ⟨["c1", "c2", "c3"], [["a", "b", "c"], ["1", "2", "3"], ["x", "y", "z"]]⟩
      { anchor := some ⟨1, 0⟩, focus := some ⟨2, 1⟩, dragging := false } =
      some "1\t2\nx\ty" := by
  rfl

/-- **C10.** The copy serialization is total for every anchor/focus pair,
in-bounds or not: for any row data and any two coordinates,
`copySelectionAsText` produces a string, and the serialized rectangle has
exactly `rowMax - rowMin + 1` lines each holding exactly
`colMax - colMin + 1` fields (missing cell positions contribute `""` via
`cellAt` rather than failing). -/
theorem c10_copy_total_shape (g : Grid) (dr : Bool) (a f : CellCoord) :
    copySelectionAsText g { anchor := some a, focus := some f, dragging := dr } =
      some (String.intercalate "\n" ((copyLines g.rows a f).map (String.intercalate "\t"))) ∧
    (copyLines g.rows a f).length = (max a.row f.row - min a.row f.row).toNat + 1 ∧
    (copyLines g.rows a f).all
      (fun line => line.length == (max a.col f.col - min a.col f.col).toNat + 1) = true := by
  refine ⟨rfl, ?_, ?_⟩
  · simp only [copyLines, List.length_map, List.length_range]
  · rw [List.all_eq_true]
    intro line hline
    simp only [copyLines, List.mem_map, List.mem_range] at hline
    obtain ⟨i, _, rfl⟩ := hline
    simp

/-- **C7, counterexample.** The classifier is not determined by the URL's
path: on `"https://e.com/a?b=c.png"` the path is `/a` — no image extension
— yet the source classifies it `image`, because the regex only requires the
extension before the end or before some `?`. The spec-worded classifier
(`specClassify`, extension at the end of the part before the query) says
`link` here. -/
theorem c7_counterexample :
    classifyCell "https://e.com/a?b=c.png" = CellClass.image ∧
      specClassify "https://e.com/a?b=c.png" = CellClass.link := by
  constructor
  · decide
  · decide

/-- **C7, amended.** The classifier is the advertised three-way, pure,
position-independent classification, with the image class characterized by
`ImageShape`: scheme, nonempty whitespace-free body, a dot and a recognized
extension, then an optional `?`+whitespace-free query — where the extension
precedes the end of the string or the query suffix, not necessarily the end
of the URL's path; `link` is exactly the non-image generic URLs and `plain`
everything else (including the empty string). -/
theorem c7_amended_classifier_characterization (s : String) :
    (classifyCell s = CellClass.image ↔ ImageShape s) ∧
    (classifyCell s = CellClass.link ↔ ¬ ImageShape s ∧ UrlShape s) ∧
    (classifyCell s = CellClass.plain ↔ ¬ ImageShape s ∧ ¬ UrlShape s) := by
  unfold classifyCell
  by_cases hempty : s = ""
  · rw [if_pos hempty]
    subst hempty
    have hni : ¬ ImageShape "" := fun h => ImageShape_ne_empty h rfl
    have hnu : ¬ UrlShape "" := fun h => UrlShape_ne_empty h rfl
    exact ⟨⟨fun h => absurd h (by decide), fun h => absurd h hni⟩,
           ⟨fun h => absurd h (by decide), fun ⟨_, hu⟩ => absurd hu hnu⟩,
           ⟨fun _ => ⟨hni, hnu⟩, fun _ => rfl⟩⟩
  · rw [if_neg hempty]
    by_cases himg : imageTest s = true
    · rw [if_pos himg]
      have hshape : ImageShape s := (imageTest_iff s).mp himg
      exact ⟨⟨fun _ => hshape, fun _ => rfl⟩,
             ⟨fun h => absurd h (by decide), fun ⟨hn, _⟩ => absurd hshape hn⟩,
             ⟨fun h => absurd h (by decide), fun ⟨hn, _⟩ => absurd hshape hn⟩⟩
    · rw [if_neg himg]
      have hnshape : ¬ ImageShape s := fun h => himg ((imageTest_iff s).mpr h)
      by_cases hurl : urlTest s = true
      · rw [if_pos hurl]
        have hu : UrlShape s := (urlTest_iff s).mp hurl
        exact ⟨⟨fun h => absurd h (by decide), fun h => absurd h hnshape⟩,
               ⟨fun _ => ⟨hnshape, hu⟩, fun _ => rfl⟩,
               ⟨fun h => absurd h (by decide), fun ⟨_, hn⟩ => absurd hu hn⟩⟩
      · rw [if_neg hurl]
        have hnu : ¬ UrlShape s := fun h => hurl ((urlTest_iff s).mpr h)
        exact ⟨⟨fun h => absurd h (by decide), fun h => absurd h hnshape⟩,
               ⟨fun h => absurd h (by decide), fun ⟨_, hu⟩ => absurd hu hnu⟩,
               ⟨fun _ => ⟨hnshape, hnu⟩, fun _ => rfl⟩⟩

/-- **C8.** The four example values classify as the specification says:
an image URL as `image`, a plain page URL as `link` (with or without a
query string), and `NULL` as `plain`. -/
theorem c8_classifier_examples :
    classifyCell "https://example.com/pic.png" = CellClass.image ∧
      classifyCell "https://example.com/page" = CellClass.link ∧
      classifyCell "https://example.com/page?x=1" = CellClass.link ∧
      classifyCell "NULL" = CellClass.plain := by
  refine ⟨by decide, by decide, by decide, by decide⟩

end Claims
